import Mathlib

/-!
# Verification of the `golist` sequence-container library

Shallow embedding of the Go library `golist` (file `list.go`).  A Go
`List[V]` wraps a slice `values []V`; we model the value sequence of a
list as a Lean `List V`.  Go's `int` indices that are provably
non-negative are modelled as `Nat`; the `Range` constructor, which is
generic over integer types, is modelled over `Int`.

Where a claim is about the *memory* behaviour of a method (whether the
receiver's backing array is written), we additionally model a Go slice
header explicitly: a backing array together with the header's length
(`GoList` below), with the observable contents ("logical contents")
being the first `len` cells of the backing array.
-/

set_option autoImplicit false

namespace golist

universe u
variable {V : Type u}

/-! ## Value-level operations (the contents of the returned containers) -/

/-- Go method `Zip` (list.go): returns the pair Go returns.  If the lengths differ it
returns the empty slice together with the error `"list must be of the same
length"`; otherwise it returns, error-free, the slice whose `i`-th entry is
the two-element list `Var(l[i], other[i]) = [l[i], other[i]]`. -/
def GoZip (l other : List V) : List (List V) × Option String :=
  if l.length ≠ other.length then
    ([], some "list must be of the same length")
  else
    (List.zipWith (fun a b => [a, b]) l other, none)

/-- Go method `Delete` (list.go): if `l.Len() <= index` the receiver is returned
unchanged; otherwise the returned slice is `values[:index]` followed by
`values[index+1:]`. -/
def GoDelete (l : List V) (index : Nat) : List V :=
  if l.length ≤ index then l
  else l.take index ++ l.drop (index + 1)

/-- Go method `First` (list.go): `var v V` (the zero value, here an explicit
parameter), overwritten with `values[0]` when the length is positive. -/
def GoFirst (zero : V) (l : List V) : V :=
  if h : 0 < l.length then l.get ⟨0, h⟩ else zero

/-- Go method `Last` (list.go): `var v V` (the zero value, here an explicit
parameter), overwritten with `values[Len()-1]` when the length is
positive. -/
def GoLast (zero : V) (l : List V) : V :=
  if h : 0 < l.length then l.get ⟨l.length - 1, by omega⟩ else zero

/-- Go constructor `Range` (list.go): `make([]V, max-min+1)` filled with `min + i` at
index `i`.  Modelled over `Int`; Go's `make` with a length expression
`max-min+1` is only meaningful when `min ≤ max` (`Nat.toNat` truncates the
degenerate case to an empty list). -/
def GoRange (min max : Int) : List Int :=
  (List.range (max - min + 1).toNat).map (fun i => min + Int.ofNat i)

/-- Go method `Chunk` (list.go): the loop `for i := 0; i < sliceLen; i += size` emits
`slice[i:min(i+size, sliceLen)]` on each iteration.  For `size ≥ 1` each
iteration takes the next `size` elements of what remains, so the loop is the
structural recursion below (`v :: t.take (size-1)` is `take size` of the
remainder, and `t.drop (size-1)` is `drop size`).  For `size ≤ 0` the Go
loop does not terminate; the claims only concern `size ≥ 1`. -/
def GoChunk (size : Nat) : List V → List (List V)
  | [] => []
  | v :: t => (v :: t.take (size - 1)) :: GoChunk size (t.drop (size - 1))
termination_by l => l.length
decreasing_by
  simp only [List.length_cons, List.length_drop]
  omega

/-- Go method `JoinToString` (list.go): walks the elements accumulating `sparts`;
the `switch any(v).(type)` either extracts the string (`case string`) or
aborts the whole call with `""` (`default`).  The type switch is modelled
by `toStr : V → Option String` (`some` exactly when the dynamic type is
`string`); `strings.Join` is `String.intercalate`. -/
def joinLoop (toStr : V → Option String) (sep : String) :
    List V → List String → String
  | [], sparts => String.intercalate sep sparts
  | v :: t, sparts =>
    match toStr v with
    | some s => joinLoop toStr sep t (sparts ++ [s])
    | none => ""

/-- Entry point of `JoinToString`: the loop starts from an empty `sparts`. -/
def GoJoinToString (toStr : V → Option String) (sep : String) (l : List V) :
    String :=
  joinLoop toStr sep l []

/-- The swap loop of `Reverse` (list.go):
`for i, j := 0, len-1; i < j; i, j = i+1, j-1` swaps `newlist[i]` and
`newlist[j]`.  `d` is a default for the (never out-of-range) reads. -/
def swapRev (d : V) (arr : List V) (i j : Nat) : List V :=
  if i < j then
    swapRev d ((arr.set i (arr.getD j d)).set j (arr.getD i d)) (i + 1) (j - 1)
  else arr
termination_by j - i

/-- Go method `Reverse` (list.go): copies `values` into a fresh `newlist` and runs the
swap loop over it with `i, j = 0, len(newlist)-1`. -/
def GoReverse (d : V) (l : List V) : List V :=
  swapRev d l 0 (l.length - 1)

/-- Go method `Unique` (list.go): the loop over `values` with the `unique` slice and
the `visited` set (modelled as the list of values inserted so far; Go map
insertion order is irrelevant, only membership is consulted). -/
def uniqueLoop [DecidableEq V] : List V → List V → List V → List V
  | [], unique, _ => unique
  | v :: t, unique, visited =>
    if v ∈ visited then uniqueLoop t unique visited
    else uniqueLoop t (unique ++ [v]) (v :: visited)

/-- Entry point of `Unique`: both accumulators start empty. -/
def GoUnique [DecidableEq V] (l : List V) : List V :=
  uniqueLoop l [] []

/-! ## Slice-header model, for frame effects on the receiver

A Go slice header is a pointer into a backing array, a length and a
capacity.  All methods take the receiver `List[V]` *by value*: the method
body works on a copy of the header, so the only way a method can change
what the caller's variable sees is by writing into the shared backing
array.  We model the caller's variable as `backing` (the full backing
array, so the capacity is `backing.length`) plus the header length `len`;
the caller observes `view = backing.take len`. -/

/-- A Go slice header over its backing array (offset 0): the caller's
`List[V]` variable. -/
structure GoList (V : Type u) : Type u where
  backing : List V
  len : Nat

/-- The logical contents the holder of the header observes: the first
`len` cells of the backing array. -/
def GoList.view (l : GoList V) : List V := l.backing.take l.len

/-- Backing array after `Add` (list.go): `append(l.values, v)` writes `v`
into cell `len` when there is spare capacity, and otherwise allocates a
fresh array, leaving the old backing untouched. -/
def addBackingAfter (l : GoList V) (v : V) : List V :=
  if l.len < l.backing.length then l.backing.set l.len v else l.backing

/-- The caller's variable after it received `Add`: same header, backing
after the append. -/
def addReceiverAfter (l : GoList V) (v : V) : GoList V :=
  ⟨addBackingAfter l v, l.len⟩

/-- The list *returned* by `Add`: the method's copy of the header after
`l.values = append(l.values, v)` — length `len + 1`, over the written
backing (spare capacity) or over the freshly allocated array (we model
the fresh array as exactly the appended contents; any extra capacity Go
reserves is invisible through the header). -/
def addResult (l : GoList V) (v : V) : GoList V :=
  if l.len < l.backing.length then ⟨l.backing.set l.len v, l.len + 1⟩
  else ⟨l.view ++ [v], l.len + 1⟩

/-- Backing array after `Delete` (list.go): for `index < len`,
`append(l.values[:index], l.values[index+1:]...)` has room in place
(capacity of `l.values[:index]` is the full capacity), so it copies cells
`index+1 … len-1` one cell to the left; cells `≥ len-1` keep their old
contents.  For `index ≥ len` nothing is written. -/
def deleteBackingAfter (l : GoList V) (index : Nat) : List V :=
  if l.len ≤ index then l.backing
  else
    l.backing.take index ++ (l.backing.drop (index + 1)).take (l.len - 1 - index)
      ++ l.backing.drop (l.len - 1)

/-- The caller's variable after it received `Delete`: same header length,
backing after the shift. -/
def deleteReceiverAfter (l : GoList V) (index : Nat) : GoList V :=
  ⟨deleteBackingAfter l index, l.len⟩

/-- The list *returned* by `Delete`: the unchanged header when
`len ≤ index`, otherwise the header shortened to `len - 1` over the
shifted backing. -/
def deleteResult (l : GoList V) (index : Nat) : GoList V :=
  if l.len ≤ index then l
  else ⟨deleteBackingAfter l index, l.len - 1⟩

/-- Backing array after any of the query/transform methods `Filter`,
`Each`, `Chunk`, `Join`, `JoinToString`, `Nth`, `Reverse`, `Shuffle`,
`Unique`, `Zip` (list.go): each of these only reads `l.values`, writing
exclusively into a freshly `make`-allocated slice (`Reverse` and `Shuffle`
`copy` first and swap inside the copy), so the receiver's backing array is
not written at all. -/
def queryBackingAfter (l : GoList V) : List V := l.backing

/-- The caller's variable after any query/transform method. -/
def queryReceiverAfter (l : GoList V) : GoList V := ⟨queryBackingAfter l, l.len⟩

/-! ## Theorems -/

/-- Claim C1. For all containers `A` and `B`, `A.Zip(B)` fails with the
length-mismatch error and an empty result when the lengths differ, and
otherwise succeeds with a sequence of `Length(A)` two-element containers
whose `i`-th entry is `{A[i], B[i]}`. -/
theorem Zip_spec (l other : List V) :
    (l.length ≠ other.length →
      GoZip l other = ([], some "list must be of the same length")) ∧
    (l.length = other.length →
      (GoZip l other).2 = none ∧
      (GoZip l other).1.length = l.length ∧
      ∀ i (hi : i < (GoZip l other).1.length) (ha : i < l.length)
        (hb : i < other.length),
        (GoZip l other).1.get ⟨i, hi⟩ = [l.get ⟨i, ha⟩, other.get ⟨i, hb⟩]) := by
  constructor
  · intro h
    simp [GoZip, h]
  · intro h
    refine ⟨by simp [GoZip, h], by simp [GoZip, h], ?_⟩
    intro i hi ha hb
    simp [GoZip, h]

/-- Witness for C1: both branches evaluated on concrete lists. -/
theorem Zip_spec_witness :
    GoZip [1, 2] ([3] : List Nat)
      = ([], some "list must be of the same length") ∧
    (GoZip [1, 2] ([30, 40] : List Nat)).2 = none ∧
    GoZip [1, 2] ([30, 40] : List Nat) = ([[1, 30], [2, 40]], none) :=
  ⟨(Zip_spec [1, 2] [3]).1 (by decide),
   ((Zip_spec [1, 2] [30, 40]).2 rfl).1,
   by decide⟩

/-- Claim C2. `Delete(i)` removes the element at position `i` (length drops
by one, remaining values are the receiver's values with position `i`
erased, order preserved) when `i < Length`, and is a contents-preserving
no-op when `i ≥ Length`. -/
theorem Delete_spec (l : List V) (index : Nat) :
    (index < l.length →
      (GoDelete l index).length = l.length - 1 ∧
      GoDelete l index = l.eraseIdx index) ∧
    (l.length ≤ index → GoDelete l index = l) := by
  constructor
  · intro h
    have hne : ¬ l.length ≤ index := by omega
    constructor
    · simp [GoDelete, hne]
      omega
    · simp [GoDelete, hne, List.eraseIdx_eq_take_drop_succ]
  · intro h
    simp [GoDelete, h]

/-- Witness for C2: both branches evaluated on the spec's concrete input
`[1,2,3]`. -/
theorem Delete_spec_witness :
    GoDelete ([1, 2, 3] : List Nat) 0 = [2, 3] ∧
    GoDelete ([1, 2, 3] : List Nat) 0 = List.eraseIdx [1, 2, 3] 0 ∧
    GoDelete ([1, 2, 3] : List Nat) 10 = [1, 2, 3] :=
  ⟨by decide,
   ((Delete_spec [1, 2, 3] 0).1 (by decide)).2,
   (Delete_spec [1, 2, 3] 10).2 (by decide)⟩

/-- Claim C4. `First()` returns the element at position 0 and `Last()` the
element at position `Length()-1` (equivalently, the head / last element),
and on an empty container both return the zero value instead of failing. -/
theorem First_Last_spec (zero : V) (l : List V) :
    GoFirst zero l = l.head?.getD zero ∧
    GoLast zero l = l.getLast?.getD zero ∧
    GoFirst zero ([] : List V) = zero ∧
    GoLast zero ([] : List V) = zero := by
  refine ⟨?_, ?_, rfl, rfl⟩
  · cases l with
    | nil => rfl
    | cons a t => simp [GoFirst]
  · cases hl : l.reverse with
    | nil =>
      have : l = [] := by simpa using congrArg List.reverse hl
      subst this; rfl
    | cons a t =>
      have hne : l ≠ [] := by
        intro h; subst h; simp at hl
      have hpos : 0 < l.length := List.length_pos.mpr hne
      rw [List.getLast?_eq_getLast l hne]
      simp only [GoLast, dif_pos hpos, Option.getD_some]
      exact (List.getLast_eq_getElem l hne).symm

/-- Claim C9. For integers `min ≤ max`, `Range(min, max)` is the inclusive
sequence `min, min+1, …, max`: its length is `max - min + 1` and its `i`-th
element is `min + i`. -/
theorem Range_spec (min max : Int) (h : min ≤ max) :
    ((GoRange min max).length : Int) = max - min + 1 ∧
    ∀ i (hi : i < (GoRange min max).length),
      (GoRange min max).get ⟨i, hi⟩ = min + (i : Int) := by
  constructor
  · simp only [GoRange, List.length_map, List.length_range]
    omega
  · intro i hi
    simp only [GoRange, List.get_eq_getElem, List.getElem_map, List.getElem_range]
    rfl

/-- Witness for C9: `Range(0,10)` evaluated concretely, and the general
theorem instantiated there. -/
theorem Range_spec_witness :
    (0 : Int) ≤ 10 ∧
    ((GoRange 0 10).length : Int) = 10 - 0 + 1 ∧
    GoRange 0 10 = [0, 1, 2, 3, 4, 5, 6, 7, 8, 9, 10] :=
  ⟨by decide, (Range_spec 0 10 (by decide)).1, by decide⟩

/-! ### Chunk -/

theorem GoChunk_cons (size : Nat) (v : V) (t : List V) :
    GoChunk size (v :: t)
      = (v :: t.take (size - 1)) :: GoChunk size (t.drop (size - 1)) := by
  rw [GoChunk]

theorem GoChunk_nil (size : Nat) : GoChunk size ([] : List V) = [] := by
  rw [GoChunk]

theorem GoChunk_nil_iff (size : Nat) (l : List V) :
    GoChunk size l = [] ↔ l = [] := by
  cases l with
  | nil => simp [GoChunk]
  | cons v t => rw [GoChunk_cons]; simp

theorem GoChunk_length (size : Nat) (hs : 1 ≤ size) :
    ∀ (n : Nat) (l : List V), l.length ≤ n →
      (GoChunk size l).length = (l.length + size - 1) / size := by
  intro n
  induction n with
  | zero =>
    intro l hl
    have hnil : l = [] := List.length_eq_zero.mp (by omega)
    subst hnil
    simp only [GoChunk, List.length_nil, Nat.zero_add]
    rw [Nat.div_eq_of_lt (by omega)]
  | succ n ih =>
    intro l hl
    cases l with
    | nil =>
      simp only [GoChunk, List.length_nil, Nat.zero_add]
      rw [Nat.div_eq_of_lt (by omega)]
    | cons v t =>
      simp only [List.length_cons] at hl
      rw [GoChunk_cons]
      simp only [List.length_cons]
      rw [ih (t.drop (size - 1)) (by simp only [List.length_drop]; omega)]
      simp only [List.length_drop]
      have hr : t.length + 1 + size - 1 = t.length + size := by omega
      rw [hr, Nat.add_div_right _ (by omega)]
      by_cases hc : t.length + 1 ≤ size
      · have h0 : t.length - (size - 1) = 0 := by omega
        rw [h0]
        rw [Nat.div_eq_of_lt (by omega), Nat.div_eq_of_lt (by omega)]
      · have h2 : t.length - (size - 1) + size - 1 = t.length := by omega
        rw [h2]

theorem GoChunk_sizes (size : Nat) (hs : 1 ≤ size) :
    ∀ (n : Nat) (l : List V), l.length ≤ n →
      ∀ c ∈ GoChunk size l, 0 < c.length ∧ c.length ≤ size := by
  intro n
  induction n with
  | zero =>
    intro l hl
    have hnil : l = [] := List.length_eq_zero.mp (by omega)
    subst hnil
    simp [GoChunk]
  | succ n ih =>
    intro l hl
    cases l with
    | nil => simp [GoChunk]
    | cons v t =>
      simp only [List.length_cons] at hl
      rw [GoChunk_cons]
      intro c hc
      rcases List.mem_cons.mp hc with h | h
      · subst h
        simp only [List.length_cons, List.length_take]
        omega
      · exact ih (t.drop (size - 1)) (by simp only [List.length_drop]; omega) c h

theorem GoChunk_dropLast (size : Nat) (hs : 1 ≤ size) :
    ∀ (n : Nat) (l : List V), l.length ≤ n →
      ∀ c ∈ (GoChunk size l).dropLast, c.length = size := by
  intro n
  induction n with
  | zero =>
    intro l hl
    have hnil : l = [] := List.length_eq_zero.mp (by omega)
    subst hnil
    simp [GoChunk]
  | succ n ih =>
    intro l hl
    cases l with
    | nil => simp [GoChunk]
    | cons v t =>
      simp only [List.length_cons] at hl
      rw [GoChunk_cons]
      by_cases hrest : GoChunk size (t.drop (size - 1)) = []
      · rw [hrest]
        simp
      · rw [List.dropLast_cons_of_ne_nil hrest]
        intro c hc
        rcases List.mem_cons.mp hc with h | h
        · subst h
          have hd : t.drop (size - 1) ≠ [] := by
            intro hnil
            exact hrest (by rw [hnil]; simp [GoChunk])
          have hlen : size - 1 ≤ t.length := by
            by_contra hnot
            exact hd (List.drop_eq_nil_of_le (by omega))
          simp only [List.length_cons, List.length_take]
          omega
        · exact ih (t.drop (size - 1))
            (by simp only [List.length_drop]; omega) c h

/-- Claim C3. For a container of length `L` and chunk size `n ≥ 1`,
`Chunk(n)` produces exactly `⌈L/n⌉ = (L + n - 1) / n` chunks, every chunk
except possibly the last of size exactly `n`, and every chunk non-empty of
size at most `n` (that the chunks are consecutive and in order is the
flattening property proved for C10). -/
theorem Chunk_spec (size : Nat) (l : List V) (hs : 1 ≤ size) :
    (GoChunk size l).length = (l.length + size - 1) / size ∧
    (∀ c ∈ (GoChunk size l).dropLast, c.length = size) ∧
    (∀ c ∈ GoChunk size l, 0 < c.length ∧ c.length ≤ size) :=
  ⟨GoChunk_length size hs l.length l (Nat.le_refl _),
   GoChunk_dropLast size hs l.length l (Nat.le_refl _),
   GoChunk_sizes size hs l.length l (Nat.le_refl _)⟩

/-- Witness for C3: the library's own test case, `[1,2,3,4,5].Chunk(2)`. -/
theorem Chunk_spec_witness :
    (1 : Nat) ≤ 2 ∧
    GoChunk 2 ([1, 2, 3, 4, 5] : List Nat) = [[1, 2], [3, 4], [5]] ∧
    (GoChunk 2 ([1, 2, 3, 4, 5] : List Nat)).length = (5 + 2 - 1) / 2 :=
  ⟨by decide, by simp [GoChunk_cons, GoChunk_nil],
   (Chunk_spec 2 [1, 2, 3, 4, 5] (by decide)).1⟩

/-- Claim C10. Concatenating the chunks of `Chunk(n)` (for `n ≥ 1`), in
order, restores exactly the original value sequence: chunking loses no
element, duplicates none and reorders nothing. -/
theorem Chunk_flatten (size : Nat) (l : List V) (_hs : 1 ≤ size) :
    (GoChunk size l).flatten = l := by
  suffices h : ∀ (n : Nat) (l : List V), l.length ≤ n →
      (GoChunk size l).flatten = l from h l.length l (Nat.le_refl _)
  intro n
  induction n with
  | zero =>
    intro l hl
    have hnil : l = [] := List.length_eq_zero.mp (by omega)
    subst hnil
    simp [GoChunk]
  | succ n ih =>
    intro l hl
    cases l with
    | nil => simp [GoChunk]
    | cons v t =>
      simp only [List.length_cons] at hl
      rw [GoChunk_cons, List.flatten_cons,
        ih (t.drop (size - 1)) (by simp only [List.length_drop]; omega)]
      simp [List.take_append_drop]

/-- Witness for C10: flattening the chunks of the test input restores it. -/
theorem Chunk_flatten_witness :
    (1 : Nat) ≤ 2 ∧
    (GoChunk 2 ([1, 2, 3, 4, 5] : List Nat)).flatten = [1, 2, 3, 4, 5] :=
  ⟨by decide, Chunk_flatten 2 [1, 2, 3, 4, 5] (by decide)⟩

/-! ### JoinToString -/

theorem joinLoop_all_some (sep : String) :
    ∀ (l acc : List String),
      joinLoop (fun s => some s) sep l acc = String.intercalate sep (acc ++ l) := by
  intro l
  induction l with
  | nil => intro acc; simp [joinLoop]
  | cons v t ih =>
    intro acc
    show joinLoop (fun s => some s) sep t (acc ++ [v]) = _
    rw [ih (acc ++ [v])]
    simp

/-- Claim C5. On a container whose element type is `string`, `JoinToString`
concatenates the elements with the separator in between
(`strings.Join` = `String.intercalate`); on a container of any non-string
element type (the type switch yields `none` for every value) it silently
returns the empty string instead of failing. -/
theorem JoinToString_spec (toStr : V → Option String)
    (hn : ∀ v, toStr v = none) (sep : String) (l : List String)
    (lv : List V) :
    GoJoinToString (fun s => some s) sep l = String.intercalate sep l ∧
    GoJoinToString toStr sep lv = "" := by
  constructor
  · rw [GoJoinToString, joinLoop_all_some sep l []]
    rfl
  · cases lv with
    | nil => rfl
    | cons v t =>
      show joinLoop toStr sep (v :: t) [] = ""
      rw [joinLoop, hn v]

/-- Witness for C5: a string container joins to `"a, b"`; an integer
container (every value refused by the type switch) joins to `""`. -/
theorem JoinToString_spec_witness :
    GoJoinToString (fun s => some s) ", " ["a", "b"] = "a, b" ∧
    GoJoinToString (fun _ : Nat => (none : Option String)) ", " [1, 2] = "" :=
  ⟨by rw [(JoinToString_spec (fun _ : Nat => none) (fun _ => rfl) ", "
      ["a", "b"] [1, 2]).1]; rfl, (JoinToString_spec (fun _ : Nat => none)
      (fun _ => rfl) ", " ["a", "b"] [1, 2]).2⟩

/-! ### Reverse -/

theorem swapRev_stop (d : V) (arr : List V) (i j : Nat) (h : ¬ i < j) :
    swapRev d arr i j = arr := by
  rw [swapRev, if_neg h]

theorem swapRev_step (d : V) (arr : List V) (i j : Nat) (h : i < j) :
    swapRev d arr i j
      = swapRev d ((arr.set i (arr.getD j d)).set j (arr.getD i d))
          (i + 1) (j - 1) := by
  conv_lhs => rw [swapRev]
  rw [if_pos h]

theorem swapRev_length (d : V) :
    ∀ (n : Nat) (arr : List V) (i j : Nat), j - i ≤ n →
      (swapRev d arr i j).length = arr.length := by
  intro n
  induction n with
  | zero =>
    intro arr i j h
    rw [swapRev_stop d arr i j (by omega)]
  | succ n ih =>
    intro arr i j h
    by_cases hij : i < j
    · rw [swapRev_step d arr i j hij, ih _ (i + 1) (j - 1) (by omega)]
      simp
    · rw [swapRev_stop d arr i j hij]

theorem swapRev_getElem? (d : V) :
    ∀ (n : Nat) (arr : List V) (i j : Nat), j - i ≤ n → j < arr.length →
      ∀ k : Nat, (swapRev d arr i j)[k]?
        = if i ≤ k ∧ k ≤ j then arr[i + j - k]? else arr[k]? := by
  intro n
  induction n with
  | zero =>
    intro arr i j h hj k
    rw [swapRev_stop d arr i j (by omega)]
    by_cases hk : i ≤ k ∧ k ≤ j
    · have : i + j - k = k := by omega
      rw [if_pos hk, this]
    · rw [if_neg hk]
  | succ n ih =>
    intro arr i j h hj k
    by_cases hij : i < j
    · have hi : i < arr.length := by omega
      rw [swapRev_step d arr i j hij]
      rw [ih _ (i + 1) (j - 1) (by omega) (by simp; omega) k]
      by_cases hk1 : i + 1 ≤ k ∧ k ≤ j - 1
      · -- strictly inside: the two writes are invisible at i+j-k
        rw [if_pos hk1, if_pos (by omega)]
        have harg : i + 1 + (j - 1) - k = i + j - k := by omega
        rw [harg]
        rw [List.getElem?_set, List.getElem?_set]
        rw [if_neg (by omega), if_neg (by omega)]
      · rw [if_neg hk1]
        by_cases hk2 : i ≤ k ∧ k ≤ j
        · rw [if_pos hk2]
          rcases Nat.eq_or_lt_of_le hk2.1 with hki | hki
          · -- k = i : the cell was overwritten with arr[j]
            have h1 : i + j - k = j := by omega
            rw [h1, List.getElem?_set, List.getElem?_set,
              if_neg (by omega : ¬ j = k), if_pos hki,
              if_pos (by simpa using hi), List.getD_eq_getElem arr d hj,
              List.getElem?_eq_getElem hj]
          · -- k = j : the cell was overwritten with arr[i]
            have hkj : j = k := by omega
            have h1 : i + j - k = i := by omega
            rw [h1, List.getElem?_set, if_pos hkj,
              if_pos (by simp only [List.length_set]; omega),
              List.getD_eq_getElem arr d hi, List.getElem?_eq_getElem hi]
        · -- outside the segment: both writes invisible
          rw [if_neg hk2]
          rw [List.getElem?_set, List.getElem?_set]
          rw [if_neg (by omega), if_neg (by omega)]
    · rw [swapRev_stop d arr i j hij]
      by_cases hk : i ≤ k ∧ k ≤ j
      · have : i + j - k = k := by omega
        rw [if_pos hk, this]
      · rw [if_neg hk]

/-- The swap loop of `Reverse`, run over the whole copy, computes exactly
`List.reverse`. -/
theorem GoReverse_eq_reverse (d : V) (l : List V) :
    GoReverse d l = l.reverse := by
  cases l with
  | nil => rw [GoReverse, swapRev_stop d [] 0 (List.length [] - 1) (by simp)]; rfl
  | cons a t =>
    apply List.ext_getElem?
    intro k
    have hlen : (a :: t).length - 1 < (a :: t).length := by simp
    rw [GoReverse, swapRev_getElem? d ((a :: t).length - 1) (a :: t) 0
      ((a :: t).length - 1) (by omega) hlen k]
    by_cases hk : k < (a :: t).length
    · rw [if_pos ⟨Nat.zero_le k, by omega⟩, List.getElem?_reverse hk]
      have : 0 + ((a :: t).length - 1) - k = (a :: t).length - 1 - k := by omega
      rw [this]
    · rw [if_neg (by omega)]
      rw [List.getElem?_eq_none (by omega), List.getElem?_eq_none (by simpa using hk)]

/-- Claim C7. Reversing twice restores the container's values, and `Reverse`
does not mutate the receiver (it copies the values and swaps inside the
copy, so the receiver's backing array is untouched and its logical
contents are unchanged). -/
theorem Reverse_involution (d : V) (l : List V) (gl : GoList V) :
    GoReverse d (GoReverse d l) = l ∧
    (queryReceiverAfter gl).view = gl.view := by
  constructor
  · rw [GoReverse_eq_reverse, GoReverse_eq_reverse, List.reverse_reverse]
  · rfl

/-! ### Unique -/

/-- Index of the first occurrence of `a` (the spec's notion of
"first-occurrence order"); equals the length when `a` is absent. -/
def firstIdx [DecidableEq V] (a : V) : List V → Nat
  | [] => 0
  | v :: t => if v = a then 0 else firstIdx a t + 1

/-- Keeping only the first occurrence of every value: the reference
description of first-occurrence deduplication, written as a structural
recursion. -/
def firstOccurrences [DecidableEq V] : List V → List V
  | [] => []
  | v :: t => v :: firstOccurrences (t.filter (fun x => x ≠ v))
termination_by l => l.length
decreasing_by
  simp only [List.length_cons]
  exact Nat.lt_succ_of_le (List.length_filter_le _ _)

theorem firstOccurrences_nil [DecidableEq V] :
    firstOccurrences ([] : List V) = [] := by
  rw [firstOccurrences]

theorem firstOccurrences_cons [DecidableEq V] (v : V) (t : List V) :
    firstOccurrences (v :: t)
      = v :: firstOccurrences (t.filter (fun x => x ≠ v)) := by
  rw [firstOccurrences]

theorem uniqueLoop_eq [DecidableEq V] (t : List V) :
    ∀ (u vis : List V),
      uniqueLoop t u vis
        = u ++ firstOccurrences (t.filter (fun x => x ∉ vis)) := by
  induction t with
  | nil =>
    intro u vis
    simp [uniqueLoop, firstOccurrences_nil]
  | cons v t ih =>
    intro u vis
    by_cases hv : v ∈ vis
    · simp only [uniqueLoop, if_pos hv]
      rw [ih u vis, List.filter_cons_of_neg (by simpa using hv)]
    · simp only [uniqueLoop, if_neg hv]
      rw [ih (u ++ [v]) (v :: vis), List.filter_cons_of_pos (by simpa using hv),
        firstOccurrences_cons, List.filter_filter]
      have hpred : t.filter (fun x => x ∉ v :: vis)
          = t.filter (fun a => decide (a ≠ v) && decide (a ∉ vis)) := by
        apply List.filter_congr
        intro a _
        by_cases h1 : a = v
        · simp [h1]
        · by_cases h2 : a ∈ vis <;> simp [h1, h2]
      rw [hpred, List.append_assoc]
      rfl

theorem GoUnique_eq [DecidableEq V] (l : List V) :
    GoUnique l = firstOccurrences l := by
  rw [GoUnique, uniqueLoop_eq l [] []]
  have : l.filter (fun x => x ∉ ([] : List V)) = l := by
    apply List.filter_eq_self.mpr
    intro a _
    simp
  rw [this, List.nil_append]

theorem mem_firstOccurrences [DecidableEq V] :
    ∀ (n : Nat) (l : List V), l.length ≤ n →
      ∀ a, a ∈ firstOccurrences l ↔ a ∈ l := by
  intro n
  induction n with
  | zero =>
    intro l hl a
    have hnil : l = [] := List.length_eq_zero.mp (by omega)
    subst hnil
    rw [firstOccurrences_nil]
  | succ n ih =>
    intro l hl a
    cases l with
    | nil => rw [firstOccurrences_nil]
    | cons v t =>
      simp only [List.length_cons] at hl
      rw [firstOccurrences_cons, List.mem_cons,
        ih (t.filter (fun x => x ≠ v))
          (le_trans (List.length_filter_le _ _) (by omega)) a,
        List.mem_filter, List.mem_cons]
      by_cases hav : a = v
      · simp [hav]
      · simp [hav]

theorem nodup_firstOccurrences [DecidableEq V] :
    ∀ (n : Nat) (l : List V), l.length ≤ n →
      (firstOccurrences l).Nodup := by
  intro n
  induction n with
  | zero =>
    intro l hl
    have hnil : l = [] := List.length_eq_zero.mp (by omega)
    subst hnil
    rw [firstOccurrences_nil]
    exact List.nodup_nil
  | succ n ih =>
    intro l hl
    cases l with
    | nil => rw [firstOccurrences_nil]; exact List.nodup_nil
    | cons v t =>
      simp only [List.length_cons] at hl
      rw [firstOccurrences_cons, List.nodup_cons]
      constructor
      · intro hmem
        have hv : v ∈ t.filter (fun x => x ≠ v) :=
          (mem_firstOccurrences _ _ (Nat.le_refl _) v).mp hmem
        have := (List.mem_filter.mp hv).2
        simp at this
      · exact ih (t.filter (fun x => x ≠ v))
          (le_trans (List.length_filter_le _ _) (by omega))

theorem firstIdx_filter_lt [DecidableEq V] (p : V → Bool) :
    ∀ (t : List V) (a b : V), a ∈ t.filter p → b ∈ t.filter p →
      firstIdx a (t.filter p) < firstIdx b (t.filter p) →
      firstIdx a t < firstIdx b t := by
  intro t
  induction t with
  | nil =>
    intro a b ha
    simp at ha
  | cons h t ih =>
    intro a b ha hb hlt
    by_cases hp : p h = true
    · rw [List.filter_cons_of_pos hp] at ha hb hlt
      by_cases hha : h = a
      · by_cases hhb : h = b
        · exfalso
          simp only [firstIdx, if_pos hha, if_pos hhb] at hlt
          omega
        · simp only [firstIdx, if_pos hha, if_neg hhb]
          omega
      · by_cases hhb : h = b
        · exfalso
          simp only [firstIdx, if_neg hha, if_pos hhb] at hlt
          omega
        · simp only [firstIdx, if_neg hha, if_neg hhb] at hlt ⊢
          have ha' : a ∈ t.filter p := by
            rcases List.mem_cons.mp ha with h1 | h1
            · exact absurd h1.symm hha
            · exact h1
          have hb' : b ∈ t.filter p := by
            rcases List.mem_cons.mp hb with h1 | h1
            · exact absurd h1.symm hhb
            · exact h1
          exact Nat.succ_lt_succ (ih a b ha' hb' (by omega))
    · rw [List.filter_cons_of_neg hp] at ha hb hlt
      have hha : ¬ h = a := fun he => hp (he ▸ (List.mem_filter.mp ha).2)
      have hhb : ¬ h = b := fun he => hp (he ▸ (List.mem_filter.mp hb).2)
      simp only [firstIdx, if_neg hha, if_neg hhb]
      exact Nat.succ_lt_succ (ih a b ha hb hlt)

theorem pairwise_firstIdx_firstOccurrences [DecidableEq V] :
    ∀ (n : Nat) (l : List V), l.length ≤ n →
      (firstOccurrences l).Pairwise (fun a b => firstIdx a l < firstIdx b l) := by
  intro n
  induction n with
  | zero =>
    intro l hl
    have hnil : l = [] := List.length_eq_zero.mp (by omega)
    subst hnil
    rw [firstOccurrences_nil]
    exact List.Pairwise.nil
  | succ n ih =>
    intro l hl
    cases l with
    | nil => rw [firstOccurrences_nil]; exact List.Pairwise.nil
    | cons v t =>
      simp only [List.length_cons] at hl
      rw [firstOccurrences_cons, List.pairwise_cons]
      constructor
      · intro b hb
        have hbmem : b ∈ t.filter (fun x => x ≠ v) :=
          (mem_firstOccurrences _ _ (Nat.le_refl _) b).mp hb
        have hvb : ¬ v = b := by
          have := (List.mem_filter.mp hbmem).2
          simp at this
          exact fun he => this he.symm
        have h0 : firstIdx v (v :: t) = 0 := by simp [firstIdx]
        have h1 : firstIdx b (v :: t) = firstIdx b t + 1 := by
          simp [firstIdx, hvb]
        rw [h0, h1]
        omega
      · have hpw := ih (t.filter (fun x => x ≠ v))
          (le_trans (List.length_filter_le _ _) (by omega))
        apply List.Pairwise.imp_of_mem ?_ hpw
        intro a b ha hb hab
        have ha' : a ∈ t.filter (fun x => x ≠ v) :=
          (mem_firstOccurrences _ _ (Nat.le_refl _) a).mp ha
        have hb' : b ∈ t.filter (fun x => x ≠ v) :=
          (mem_firstOccurrences _ _ (Nat.le_refl _) b).mp hb
        have hat : firstIdx a t < firstIdx b t :=
          firstIdx_filter_lt _ t a b ha' hb' hab
        have hva : ¬ v = a := by
          have := (List.mem_filter.mp ha').2
          simp at this
          exact fun he => this he.symm
        have hvb : ¬ v = b := by
          have := (List.mem_filter.mp hb').2
          simp at this
          exact fun he => this he.symm
        simp only [firstIdx, if_neg hva, if_neg hvb]
        omega

/-- Claim C8. `Unique()` contains no two equal values (`Nodup`), has exactly
the distinct values of the receiver (same membership), and lists them in
order of their first occurrence in the receiver (strictly increasing
first-occurrence indices). -/
theorem Unique_spec [DecidableEq V] (l : List V) :
    (GoUnique l).Nodup ∧
    (∀ a, a ∈ GoUnique l ↔ a ∈ l) ∧
    (GoUnique l).Pairwise (fun a b => firstIdx a l < firstIdx b l) := by
  rw [GoUnique_eq]
  exact ⟨nodup_firstOccurrences l.length l (Nat.le_refl _),
    fun a => mem_firstOccurrences l.length l (Nat.le_refl _) a,
    pairwise_firstIdx_firstOccurrences l.length l (Nat.le_refl _)⟩

/-! ### Frame effects (C6) -/

/-- Claim C6, counterexample. The claim says `Add` mutates the receiver in
place, i.e. after `C.Add(v)` the receiver's logical contents are
`C ++ [v]`.  False: `Add` takes its receiver by value, so with receiver
`From([]int{1,2,3})` (backing `[1,2,3]`, header length 3) and `v = 4`,
after the call the receiver still reads `[1,2,3]`, not `[1,2,3,4]`. -/
theorem Add_not_in_place_cex :
    (addReceiverAfter ⟨[1, 2, 3], 3⟩ (4 : Nat)).view = [1, 2, 3] ∧
    ¬ (addReceiverAfter ⟨[1, 2, 3], 3⟩ (4 : Nat)).view = [1, 2, 3, 4] := by
  constructor
  · decide
  · decide

theorem take_addBackingAfter (gl : GoList V) (v : V) :
    (addBackingAfter gl v).take gl.len = gl.backing.take gl.len := by
  rw [addBackingAfter]
  by_cases hc : gl.len < gl.backing.length
  · rw [if_pos hc, List.set_take]
    apply List.set_eq_of_length_le
    simp
  · rw [if_neg hc]

/-- Claim C6, amended. Frame effects of the methods, over the slice-header
model: every query/transform method (`Filter`, `Each`, `Chunk`, `Join`,
`Nth`, `Reverse`, `Shuffle`, `Unique`, `Zip`, `JoinToString`) leaves the
receiver's logical contents unchanged; `Add` *also* leaves the receiver's
logical contents unchanged — the appended sequence is observable only
through the returned list, because the receiver header is passed by
value; `Delete` with a valid index does mutate the backing array in
place — the returned list holds the values with position `index` erased,
while the receiver is left seeing the remaining values shifted left with
the former last element duplicated — and with `index ≥ len` both receiver
and result are unchanged. -/
theorem Frame_spec (gl : GoList V) (h : gl.len ≤ gl.backing.length)
    (v : V) (index : Nat) :
    (queryReceiverAfter gl).view = gl.view ∧
    (addReceiverAfter gl v).view = gl.view ∧
    (addResult gl v).view = gl.view ++ [v] ∧
    (index < gl.len →
      (deleteReceiverAfter gl index).view
        = gl.view.eraseIdx index ++ gl.view.drop (gl.len - 1) ∧
      (deleteResult gl index).view = gl.view.eraseIdx index) ∧
    (gl.len ≤ index →
      deleteReceiverAfter gl index = gl ∧ deleteResult gl index = gl) := by
  have hview_len : gl.view.length = gl.len := by
    simp [GoList.view]
    omega
  refine ⟨rfl, take_addBackingAfter gl v, ?_, ?_, ?_⟩
  · -- Add: contents of the returned list
    rw [addResult]
    by_cases hc : gl.len < gl.backing.length
    · rw [if_pos hc]
      show (gl.backing.set gl.len v).take (gl.len + 1) = _
      rw [List.take_succ, List.getElem?_set, if_pos rfl, if_pos hc]
      rw [List.set_take]
      rw [List.set_eq_of_length_le (by simp)]
      rfl
    · rw [if_neg hc]
      show (gl.view ++ [v]).take (gl.len + 1) = _
      apply List.take_of_length_le
      simp [hview_len]
  · -- Delete, index < len : in-place shift visible to the receiver
    intro hidx
    have hlen1 : 0 < gl.len := by omega
    have hA : (gl.backing.take index).length = index := by
      simp
      omega
    have hB : ((gl.backing.drop (index + 1)).take (gl.len - 1 - index)).length
        = gl.len - 1 - index := by
      simp
      omega
    have hbacking : deleteBackingAfter gl index
        = gl.backing.take index
          ++ (gl.backing.drop (index + 1)).take (gl.len - 1 - index)
          ++ gl.backing.drop (gl.len - 1) := by
      rw [deleteBackingAfter, if_neg (by omega)]
    have herase : gl.view.eraseIdx index
        = gl.backing.take index
          ++ (gl.backing.drop (index + 1)).take (gl.len - 1 - index) := by
      rw [List.eraseIdx_eq_take_drop_succ, GoList.view, List.take_take,
        List.drop_take]
      have h1 : min index gl.len = index := by omega
      have h2 : gl.len - (index + 1) = gl.len - 1 - index := by omega
      rw [h1, h2]
    have hdropview : gl.view.drop (gl.len - 1)
        = (gl.backing.drop (gl.len - 1)).take 1 := by
      rw [GoList.view, List.drop_take]
      have : gl.len - (gl.len - 1) = 1 := by omega
      rw [this]
    constructor
    · show (deleteBackingAfter gl index).take gl.len = _
      rw [hbacking, herase, hdropview, List.take_append_eq_append_take,
        List.take_of_length_le
          (by simp [hA, hB]; omega :
            (gl.backing.take index ++ (gl.backing.drop (index + 1)).take
              (gl.len - 1 - index)).length ≤ gl.len)]
      congr 1
      have : gl.len - ((gl.backing.take index)
          ++ (gl.backing.drop (index + 1)).take (gl.len - 1 - index)).length
          = 1 := by
        simp [hA, hB]
        omega
      rw [this]
    · show (deleteResult gl index).view = _
      rw [deleteResult, if_neg (by omega)]
      show (deleteBackingAfter gl index).take (gl.len - 1) = _
      rw [hbacking, herase, List.take_append_eq_append_take]
      have hlenAB : (gl.backing.take index
          ++ (gl.backing.drop (index + 1)).take (gl.len - 1 - index)).length
          = gl.len - 1 := by
        simp [hA, hB]
        omega
      rw [List.take_of_length_le (le_of_eq hlenAB), hlenAB, Nat.sub_self,
        List.take_zero, List.append_nil]
  · -- Delete, index ≥ len : nothing written, same header
    intro hidx
    have hb : deleteBackingAfter gl index = gl.backing := by
      rw [deleteBackingAfter, if_pos hidx]
    constructor
    · show (⟨deleteBackingAfter gl index, gl.len⟩ : GoList V) = gl
      rw [hb]
    · rw [deleteResult, if_pos hidx]

/-- Witness for C6 (amended): a receiver with backing `[1,2,3,9]` and
header length 3 (one cell of spare capacity), `Add 7` and `Delete 1`
evaluated concretely. -/
theorem Frame_spec_witness :
    (⟨[1, 2, 3, 9], 3⟩ : GoList Nat).len
      ≤ (⟨[1, 2, 3, 9], 3⟩ : GoList Nat).backing.length ∧
    (queryReceiverAfter (⟨[1, 2, 3, 9], 3⟩ : GoList Nat)).view = [1, 2, 3] ∧
    (addReceiverAfter (⟨[1, 2, 3, 9], 3⟩ : GoList Nat) 7).view = [1, 2, 3] ∧
    (addResult (⟨[1, 2, 3, 9], 3⟩ : GoList Nat) 7).view = [1, 2, 3, 7] ∧
    (deleteReceiverAfter (⟨[1, 2, 3, 9], 3⟩ : GoList Nat) 1).view
      = [1, 3, 3] ∧
    (deleteResult (⟨[1, 2, 3, 9], 3⟩ : GoList Nat) 1).view = [1, 3] := by
  have h := Frame_spec (⟨[1, 2, 3, 9], 3⟩ : GoList Nat) (by decide) 7 1
  exact ⟨by decide, h.1.trans (by decide), h.2.1.trans (by decide),
    h.2.2.1.trans (by decide), (h.2.2.2.1 (by decide)).1.trans (by decide),
    (h.2.2.2.1 (by decide)).2.trans (by decide)⟩

end golist
